import Mathlib

/-!
Verification of the dutyscheduler repository: a shallow embedding of the
duty-roster engine (`src/etc/helpers.js`, `src/etc/defaultConfig.js`,
`src/models/Person.js` containing the `Person` and `DutySet` classes) and
proofs settling the frozen claims about it.

Modelling conventions:
* JavaScript numbers that participate in score arithmetic are modelled as `ℚ`
  (all operations in the engine are +, -, *, /, comparisons on exact values).
* A duty assignment slot holds `-1` ("unassigned") or a duty-type index, so
  `assignments : List ℤ` exactly as the source stores it.
* An availability entry is `Option Bool`: `some b` for a boolean, `none` for
  JavaScript `undefined` (which arises when the availability pattern is empty,
  since `i % 0` is `NaN` and `pattern[NaN]` is `undefined`; in the model
  `i % 0 = i` and `pattern[i]? = none`, the same result).
* Out-of-bounds reads are `Option`-valued (`undefined` ↦ `none`); fallible
  operations (a JavaScript `TypeError` crash) are modelled with `Option`.
* The `Person.dutySet` back-reference is replaced by passing the `DutySet`
  to the methods that need it, per the object graph of the source.
-/

namespace DutyScheduler

/-- Modify the element at index `k` (identity when out of range).  Used to
model in-place mutation of one element of a JavaScript array. -/
def modifyIdx : List α → ℕ → (α → α) → List α
  | [], _, _ => []
  | x :: xs, 0, f => f x :: xs
  | x :: xs, k + 1, f => x :: modifyIdx xs k f

/-- Embeds `helpers.js` `createFilledArray(value, length)`: array of `length` copies
of `value` (a negative length yields `[]`, hence `ℕ`). -/
def createFilledArray (value : α) (length : ℕ) : List α :=
  List.replicate length value

/-- Embeds `helpers.js` `calculateArray(valueFunction, length)`: array whose entry
`i` is `valueFunction(i)`. -/
def calculateArray (valueFunction : ℕ → α) (length : ℕ) : List α :=
  (List.range length).map valueFunction

/-- Scoring-weight configuration (`src/etc/defaultConfig.js` shape; the
`DutySet` constructor merges caller overrides over these defaults and the
result is immutable, so a run sees one fully-populated record). -/
structure Config where
  unavailableImpact : ℚ
  targetDutyCountMetImpact : ℚ
  belowAverageImpact : ℚ
  dayBeforeImpact : ℚ
  numDaysEffect : ℚ
  deriving DecidableEq, Repr

/-- The default scoring weights of `src/etc/defaultConfig.js`. -/
def defaultConfig : Config :=
  { unavailableImpact := -50
    targetDutyCountMetImpact := -100
    belowAverageImpact := 50
    dayBeforeImpact := -20
    numDaysEffect := 2 }

/-- Embeds `Person` (src/models/Person.js): name, expanded availability and the
per-day assignment slots (`-1` = unassigned). -/
structure Person where
  name : String
  availability : List (Option Bool)
  assignments : List ℤ
  deriving DecidableEq, Repr

/-- Embeds `DutySet` (src/models/Person.js): roster dimensions, person pool and the
merged scoring config. -/
structure DutySet where
  numDays : ℕ
  numDutyTypes : ℕ
  persons : List Person
  config : Config
  deriving DecidableEq, Repr

/-- The `Person` constructor: availability is the pattern recycled to
`numDays` entries via `calculateArray(i => availability[i % availability.length], ...)`;
assignments start as `numDays` copies of `-1`.  An empty pattern makes every
availability entry `undefined` (`i % 0` is `NaN` in JavaScript, and the model's
`pattern[i % 0]? = pattern[i]? = none` on an empty `pattern` agrees). -/
def mkPerson (name : String) (pattern : List Bool) (ds : DutySet) : Person :=
  { name := name
    availability :=
      calculateArray (fun i => pattern[i % pattern.length]?) ds.numDays
    assignments := createFilledArray (-1) ds.numDays }

/-- Embeds the `DutySet` constructor followed by config merge; persons start empty. -/
def mkDutySet (numDays numOnDuty : ℕ) (config : Config) : DutySet :=
  { numDays := numDays, numDutyTypes := numOnDuty, persons := [], config := config }

/-- Embeds `DutySet.addPerson`. -/
def addPerson (s : DutySet) (p : Person) : DutySet :=
  { s with persons := s.persons ++ [p] }

/-- Increment the entry at index `k` (the `res[this.assignments[i]]++` step of
`Person.getNumDuties`; during scheduling the index is always in range). -/
def incrAt : List ℕ → ℕ → List ℕ
  | [], _ => []
  | x :: xs, 0 => (x + 1) :: xs
  | x :: xs, k + 1 => x :: incrAt xs k

/-- Embeds `Person.getNumDuties`: per-duty-type assignment counts, built by walking
the assignments and incrementing the slot of each non-`-1` entry. -/
def getNumDuties (numDutyTypes : ℕ) (p : Person) : List ℕ :=
  p.assignments.foldl
    (fun res a => if a = -1 then res else incrAt res a.toNat)
    (createFilledArray 0 numDutyTypes)

/-- Embeds `Person.getNumDutiesOfType`: `getNumDuties()[typeIndex]` (the index is in
range whenever the engine calls it). -/
def getNumDutiesOfType (numDutyTypes : ℕ) (p : Person) (typeIndex : ℕ) : ℕ :=
  (getNumDuties numDutyTypes p).getD typeIndex 0

/-- Embeds `Person.getNumDaysSincePreviousDuty`: scan days `dayIndex-1 .. 0` for the
most recent assignment; `999` if none. -/
def getNumDaysSincePreviousDuty (p : Person) (dayIndex : ℕ) : ℕ :=
  match (List.range dayIndex).reverse.find? (fun i => p.assignments.getD i (-1) != -1) with
  | some i => dayIndex - i
  | none => 999

/-- Embeds `DutySet.getTargetNumDuties` (src/models/Person.js line 212): the target
is `numDays / persons.length`, broadcast over all duty types. -/
def getTargetNumDuties (s : DutySet) : List ℚ :=
  createFilledArray ((s.numDays : ℚ) / (s.persons.length : ℚ)) s.numDutyTypes

/-- Embeds `DutySet.getTargetNumDutiesOfType`: `getTargetNumDuties()[typeIndex]`. -/
def getTargetNumDutiesOfType (s : DutySet) (typeIndex : ℕ) : ℚ :=
  (getTargetNumDuties s).getD typeIndex 0

/-- Embeds `Person.getDutyScoreOfType`: base 100, then the five additive adjustments
in source order (target met, recent duty, unavailable, below average,
same-day-conflict veto). -/
def getDutyScoreOfType (s : DutySet) (p : Person) (dayIndex typeIndex : ℕ)
    (averageDutyAssignments : List ℚ) : ℚ :=
  let cnt : ℚ := (getNumDutiesOfType s.numDutyTypes p typeIndex : ℚ)
  let avg : ℚ := averageDutyAssignments.getD typeIndex 0
  100
    + (if getTargetNumDutiesOfType s typeIndex ≤ cnt
        then s.config.targetDutyCountMetImpact else 0)
    + (if (getNumDaysSincePreviousDuty p dayIndex : ℚ) ≤ s.config.numDaysEffect
        then s.config.dayBeforeImpact else 0)
    + (if p.availability.getD dayIndex none = some false
        then s.config.unavailableImpact else 0)
    + (if cnt < avg then (avg - cnt) * s.config.belowAverageImpact else 0)
    + (if p.assignments.getD dayIndex (-1) ≠ -1 ∧
          p.assignments.getD dayIndex (-1) ≠ (typeIndex : ℤ)
        then -10000 else 0)

/-- Embeds `helpers.js` `calculateDutyAverage(persons, numDutyTypes)`: elementwise sum
of every person's duty counts divided by the number of persons.  With zero
persons the JavaScript division `0 / 0` yields `NaN` without raising; the
model's `ℚ` division by zero yields `0` — in both, a plain value is returned
and no error occurs. -/
def calculateDutyAverage (persons : List Person) (numDutyTypes : ℕ) : List ℚ :=
  ((persons.map (getNumDuties numDutyTypes)).foldl
      (fun accumulator v => List.zipWith (· + ·) accumulator v)
      (createFilledArray (0 : ℕ) numDutyTypes)).map
    (fun num : ℕ => (num : ℚ) / (persons.length : ℚ))

/-- Embeds `Math.min(...arr)` (only applied to nonempty arrays by the engine). -/
def jsMin : List ℚ → ℚ
  | [] => 0
  | x :: xs => xs.foldl min x

/-- The inner scan of `helpers.js` `sortIndicesDescending`: find the index of
the highest not-yet-chosen value, starting from `highestIndex = -1` and
`highestValue = Math.min(...arr) - 1`, replacing only on strictly greater. -/
def scanHighest (arr : List ℚ) (res : List ℤ) : ℤ :=
  ((List.range arr.length).foldl
    (fun st j =>
      if Int.ofNat j ∉ res ∧ st.2 < arr.getD j 0 then (Int.ofNat j, arr.getD j 0) else st)
    ((-1 : ℤ), jsMin arr - 1)).1

/-- Embeds `helpers.js` `sortIndicesDescending(arr)`: selection-style descending
ranking; `res` starts as `arr.length` copies of `-1` and pass `i` stores the
scan winner at slot `i` (`res.includes(j)` excludes already-chosen indices). -/
def sortIndicesDescending (arr : List ℚ) : List ℤ :=
  (List.range arr.length).foldl
    (fun res i => res.set i (scanHighest arr res))
    (createFilledArray (-1) arr.length)

/-- The score vector the engine computes for slot `(dayIndex, typeIndex)`:
averages recomputed from the current state, then every person scored. -/
def personScores (s : DutySet) (dayIndex typeIndex : ℕ) : List ℚ :=
  let averageDutyAssignments := calculateDutyAverage s.persons s.numDutyTypes
  s.persons.map (fun p => getDutyScoreOfType s p dayIndex typeIndex averageDutyAssignments)

/-- Embeds `highestScoreIndices[0]` of `DutySet.calculateSchedule` (`-1` when the
ranking is empty, mirroring `undefined`). -/
def selectWinner (s : DutySet) (dayIndex typeIndex : ℕ) : ℤ :=
  (sortIndicesDescending (personScores s dayIndex typeIndex)).getD 0 (-1)

/-- Embeds `Person.setAssignment` applied to the person at index `w` of the pool. -/
def assignPerson (s : DutySet) (w : ℕ) (dayIndex typeIndex : ℕ) : DutySet :=
  { s with
    persons := modifyIdx s.persons w
      (fun p => { p with assignments := p.assignments.set dayIndex (typeIndex : ℤ) }) }

/-- One `(dutyType, day)` iteration of `DutySet.calculateSchedule`:
`this.persons[highestScoreIndices[0]].setAssignment(i, dutyType)`.  When the
winner index is not a valid position (empty pool), the JavaScript code crashes
with a `TypeError` on `undefined.setAssignment`; modelled as `none`. -/
def scheduleStep (typeIndex dayIndex : ℕ) (s : DutySet) : Option DutySet :=
  let w := selectWinner s dayIndex typeIndex
  if 0 ≤ w ∧ w.toNat < s.persons.length then
    some (assignPerson s w.toNat dayIndex typeIndex)
  else
    none

/-- Embeds `DutySet.calculateSchedule`: outer loop over duty types, inner loop over
days.  The `debug` flag only triggers `console.log` in the source and has no
effect on state. -/
def calculateSchedule (debug : Bool) (s : DutySet) : Option DutySet :=
  let _ := debug
  (List.range s.numDutyTypes).foldlM
    (fun st typeIndex =>
      (List.range st.numDays).foldlM
        (fun st2 dayIndex => scheduleStep typeIndex dayIndex st2) st)
    s

/-- Slot `t` of day `day` of `DutySet.getSchedule`: the source overwrites
`day[assignment] = name` in pool order, so the slot holds the *last* person in
the pool whose assignment for the day is `t`, and is `undefined` (`none`) if
there is none. -/
def scheduleEntry (s : DutySet) (day t : ℕ) : Option String :=
  ((s.persons.filter (fun p => p.assignments.getD day (-1) == (t : ℤ))).getLast?).map
    Person.name

/-- Embeds `DutySet.getSchedule`: one sparse array per day; under the engine's
invariant that assignment values lie in `[0, numDutyTypes)`, day `i` is
captured by its `numDutyTypes` possible slots, `none` marking the holes of the
JavaScript sparse array (its defined entries are exactly the `some` ones). -/
def getSchedule (s : DutySet) : List (List (Option String)) :=
  (List.range s.numDays).map
    (fun day => (List.range s.numDutyTypes).map (fun t => scheduleEntry s day t))

/-- Left-to-right arg-max, transcribed from the spec (§4.4): scan the scores,
replacing the current best only on a strictly greater score. -/
def specArgmax (scores : List ℚ) : ℕ :=
  (List.range scores.length).foldl
    (fun best j => if scores.getD best 0 < scores.getD j 0 then j else best) 0

/-- Modelled from the spec (§4.5 pseudocode): one `(day, dutyType)` body —
recompute averages, score every person, rank, assign `ranking[0]`'s person. -/
def specStep (s : DutySet) (typeIndex dayIndex : ℕ) : DutySet :=
  assignPerson s (specArgmax (personScores s dayIndex typeIndex)) dayIndex typeIndex

/-- Modelled from the spec (§4.5): the full fill loop, outer over duty type,
inner over day; the entire pass for duty type `t` finishes before the pass for
duty type `t+1` starts. -/
def specCalculateSchedule (s : DutySet) : DutySet :=
  (List.range s.numDutyTypes).foldl
    (fun st typeIndex =>
      (List.range st.numDays).foldl
        (fun st2 dayIndex => specStep st2 typeIndex dayIndex) st)
    s

/-- Well-formedness maintained by the engine: every person's assignment list
has one slot per day holding `-1` or a valid duty-type index. -/
def WF (s : DutySet) : Prop :=
  ∀ p ∈ s.persons, p.assignments.length = s.numDays ∧
    ∀ a ∈ p.assignments, a = -1 ∨ (0 ≤ a ∧ a < (s.numDutyTypes : ℤ))

/-- Everything `calculateSchedule` leaves untouched: dimensions, config, and
every person's name and availability (in pool order). -/
def Frame (s s' : DutySet) : Prop :=
  s'.numDays = s.numDays ∧ s'.numDutyTypes = s.numDutyTypes ∧
  s'.config = s.config ∧
  s'.persons.map Person.name = s.persons.map Person.name ∧
  s'.persons.map Person.availability = s.persons.map Person.availability

/-- Some person in the pool holds duty type `t` on day `d`. -/
def HasAssigned (t d : ℕ) (s : DutySet) : Prop :=
  ∃ (i : ℕ) (p : Person), s.persons[i]? = some p ∧ p.assignments.getD d (-1) = (t : ℤ)

/-! ### Proof infrastructure for the selection ranking -/

/-- First-maximum fold: the body of the spec ranking restricted to candidate
indices `b :: cs` (replace the best only on a strictly greater value). -/
def firstMaxAux (arr : List ℚ) (b : ℕ) (cs : List ℕ) : ℕ :=
  cs.foldl (fun best j => if arr.getD best 0 < arr.getD j 0 then j else best) b

/-- The candidate indices not yet chosen by the selection ranking. -/
def cands (arr : List ℚ) (chosen : List ℤ) : List ℕ :=
  (List.range arr.length).filter (fun j => decide (Int.ofNat j ∉ chosen))

/-- The index the scan of `sortIndicesDescending` picks next. -/
def nextSel (arr : List ℚ) (chosen : List ℤ) : ℕ :=
  match cands arr chosen with
  | [] => 0
  | c :: cs => firstMaxAux arr c cs

/-- The first `k` selections of `sortIndicesDescending` in order. -/
def selSeq (arr : List ℚ) : ℕ → List ℤ
  | 0 => []
  | k + 1 => selSeq arr k ++ [Int.ofNat (nextSel arr (selSeq arr k))]

/-! ### Concrete fixtures used by witnesses and counterexamples -/

/-- C2: 6 days, 2 duty types, 3 persons. -/
def targetDemoSet : DutySet :=
  let base := mkDutySet 6 2 defaultConfig
  addPerson (addPerson (addPerson base (mkPerson "A" [true] base))
    (mkPerson "B" [true] base)) (mkPerson "C" [true] base)

/-- C3: a single person with two duty types on one day. -/
def soloSet : DutySet :=
  let base := mkDutySet 1 2 defaultConfig
  addPerson base (mkPerson "A" [true] base)

/-- C3 witness: 2 days, 2 duty types, 2 persons. -/
def shapeDemoSet : DutySet :=
  let base := mkDutySet 2 2 defaultConfig
  addPerson (addPerson base (mkPerson "A" [true] base)) (mkPerson "B" [true] base)

/-- C4: a legal custom config making unavailability outweigh the veto. -/
def vetoCfg : Config :=
  { defaultConfig with unavailableImpact := -20000 }

/-- C4: 1 day, 2 duty types; A available, B not, under `vetoCfg`. -/
def vetoSet : DutySet :=
  let base := mkDutySet 1 2 vetoCfg
  addPerson (addPerson base (mkPerson "A" [true] base)) (mkPerson "B" [false] base)

/-- C4: the state after the genuine first step `(dutyType 0, day 0)` on
`vetoSet`: A holds duty type 0 on day 0, B is unassigned. -/
def vetoMidSet : DutySet :=
  { numDays := 1, numDutyTypes := 2
    persons := [⟨"A", [some true], [0]⟩, ⟨"B", [some false], [-1]⟩]
    config := vetoCfg }

/-- C4 witness: default config, person A already holds duty type 0 on day 0,
person B unassigned. -/
def vetoWitnessSet : DutySet :=
  { numDays := 1, numDutyTypes := 2
    persons := [⟨"A", [some true], [0]⟩, ⟨"B", [some true], [-1]⟩]
    config := defaultConfig }

/-- C6 witness: a pool-less duty set with one day and one duty type. -/
def emptyPoolSet : DutySet := mkDutySet 1 1 defaultConfig

/-- C8 witness: a 5-day duty set for pattern recycling. -/
def patternDemoSet : DutySet := mkDutySet 5 1 defaultConfig

/-- C9: 3 days, 1 duty type, 2 always-available persons. -/
def pairSet : DutySet :=
  let base := mkDutySet 3 1 defaultConfig
  addPerson (addPerson base (mkPerson "A" [true] base)) (mkPerson "B" [true] base)

/-- C1 witness: 2 days, 2 duty types, 2 persons with differing availability. -/
def refineDemoSet : DutySet :=
  let base := mkDutySet 2 2 defaultConfig
  addPerson (addPerson base (mkPerson "A" [true, false] base))
    (mkPerson "B" [false, true] base)

/-- C10 witness: 2 days, 1 duty type, 2 persons. -/
def frameDemoSet : DutySet :=
  let base := mkDutySet 2 1 defaultConfig
  addPerson (addPerson base (mkPerson "A" [true] base)) (mkPerson "B" [false] base)

/-! ### Helper lemmas: list utilities -/

theorem modifyIdx_nil (k : ℕ) (f : α → α) : modifyIdx [] k f = [] := rfl

theorem modifyIdx_cons_zero (x : α) (xs : List α) (f : α → α) :
    modifyIdx (x :: xs) 0 f = f x :: xs := rfl

theorem modifyIdx_cons_succ (x : α) (xs : List α) (k : ℕ) (f : α → α) :
    modifyIdx (x :: xs) (k + 1) f = x :: modifyIdx xs k f := rfl

@[simp] theorem length_modifyIdx (l : List α) (k : ℕ) (f : α → α) :
    (modifyIdx l k f).length = l.length := by
  induction l generalizing k with
  | nil => rfl
  | cons x xs ih => cases k <;> simp [modifyIdx, ih]

theorem getElem?_modifyIdx (l : List α) (k : ℕ) (f : α → α) (j : ℕ) :
    (modifyIdx l k f)[j]? = if j = k then (l[j]?).map f else l[j]? := by
  induction l generalizing k j with
  | nil => simp [modifyIdx]
  | cons x xs ih =>
    cases k with
    | zero => cases j <;> simp [modifyIdx]
    | succ k =>
      cases j with
      | zero => simp [modifyIdx]
      | succ j => simpa [modifyIdx, Nat.succ_inj] using ih k j

theorem map_modifyIdx (l : List α) (k : ℕ) (f : α → α) (g : α → β)
    (hg : ∀ a, g (f a) = g a) : (modifyIdx l k f).map g = l.map g := by
  induction l generalizing k with
  | nil => rfl
  | cons x xs ih => cases k <;> simp [modifyIdx, hg, ih]

@[simp] theorem length_calculateArray (f : ℕ → α) (n : ℕ) :
    (calculateArray f n).length = n := by
  simp [calculateArray]

theorem getElem?_calculateArray (f : ℕ → α) (n i : ℕ) (hi : i < n) :
    (calculateArray f n)[i]? = some (f i) := by
  simp [calculateArray, List.getElem?_map, List.getElem?_range hi]

@[simp] theorem length_incrAt (l : List ℕ) (k : ℕ) : (incrAt l k).length = l.length := by
  induction l generalizing k with
  | nil => rfl
  | cons x xs ih => cases k <;> simp [incrAt, ih]

theorem getElem?_incrAt (l : List ℕ) (k j : ℕ) :
    (incrAt l k)[j]? = if j = k then (l[j]?).map (· + 1) else l[j]? := by
  induction l generalizing k j with
  | nil => simp [incrAt]
  | cons x xs ih =>
    cases k with
    | zero => cases j <;> simp [incrAt]
    | succ k =>
      cases j with
      | zero => simp [incrAt]
      | succ j => simpa [incrAt, Nat.succ_inj] using ih k j

/-! ### Helper lemmas: the selection ranking -/

theorem foldl_min_le_init (xs : List ℚ) (a : ℚ) : xs.foldl min a ≤ a := by
  induction xs generalizing a with
  | nil => exact le_refl a
  | cons x xs ih => exact le_trans (ih (min a x)) (min_le_left a x)

theorem foldl_min_le_mem (xs : List ℚ) (a x : ℚ) (hx : x ∈ xs) : xs.foldl min a ≤ x := by
  induction xs generalizing a with
  | nil => cases hx
  | cons y ys ih =>
    rcases List.mem_cons.mp hx with h | h
    · subst h
      exact le_trans (foldl_min_le_init ys (min a x)) (min_le_right a x)
    · exact ih (min a y) h

theorem jsMin_le (arr : List ℚ) (x : ℚ) (hx : x ∈ arr) : jsMin arr ≤ x := by
  cases arr with
  | nil => cases hx
  | cons y ys =>
    rcases List.mem_cons.mp hx with h | h
    · subst h; exact foldl_min_le_init ys x
    · exact foldl_min_le_mem ys y x h

theorem jsMin_le_getD (arr : List ℚ) (j : ℕ) (hj : j < arr.length) :
    jsMin arr ≤ arr.getD j 0 := by
  apply jsMin_le
  rw [List.getD_eq_getElem?_getD, List.getElem?_eq_getElem hj]
  exact List.getElem_mem hj

theorem mem_cands (arr : List ℚ) (chosen : List ℤ) (j : ℕ) :
    j ∈ cands arr chosen ↔ j < arr.length ∧ Int.ofNat j ∉ chosen := by
  simp [cands, List.mem_filter, List.mem_range]

theorem cands_pairwise (arr : List ℚ) (chosen : List ℤ) :
    (cands arr chosen).Pairwise (· < ·) :=
  List.Pairwise.sublist (List.filter_sublist _) (List.pairwise_lt_range arr.length)

theorem foldl_skip_filter (arr : List ℚ) (res : List ℤ) (l : List ℕ) (init : ℤ × ℚ) :
    l.foldl
      (fun st j =>
        if Int.ofNat j ∉ res ∧ st.2 < arr.getD j 0 then (Int.ofNat j, arr.getD j 0) else st)
      init =
    (l.filter (fun j => decide (Int.ofNat j ∉ res))).foldl
      (fun st j => if st.2 < arr.getD j 0 then (Int.ofNat j, arr.getD j 0) else st)
      init := by
  induction l generalizing init with
  | nil => rfl
  | cons j l ih =>
    by_cases hj : Int.ofNat j ∈ res
    · rw [List.foldl_cons, if_neg (fun h => h.1 hj),
        List.filter_cons_of_neg (by simpa using hj)]
      exact ih init
    · rw [List.foldl_cons, List.filter_cons_of_pos (by simpa using hj), List.foldl_cons]
      by_cases hlt : init.2 < arr.getD j 0
      · rw [if_pos ⟨hj, hlt⟩, if_pos hlt]
        exact ih _
      · rw [if_neg (fun h => hlt h.2), if_neg hlt]
        exact ih init

/-- The skip-guarded scan equals the plain scan over the candidate list. -/
theorem scanHighest_eq_cands_foldl (arr : List ℚ) (res : List ℤ) :
    scanHighest arr res =
      ((cands arr res).foldl
        (fun st j => if st.2 < arr.getD j 0 then (Int.ofNat j, arr.getD j 0) else st)
        ((-1 : ℤ), jsMin arr - 1)).1 := by
  unfold scanHighest cands
  rw [foldl_skip_filter]

/-- After the first adoption the pair scan tracks `firstMaxAux`. -/
theorem pair_foldl_eq_firstMaxAux (arr : List ℚ) (cs : List ℕ) (b : ℕ) :
    (cs.foldl
      (fun st j => if st.2 < arr.getD j 0 then (Int.ofNat j, arr.getD j 0) else st)
      (Int.ofNat b, arr.getD b 0)).1 = Int.ofNat (firstMaxAux arr b cs) := by
  induction cs generalizing b with
  | nil => simp [firstMaxAux]
  | cons c cs ih =>
    have hstep : firstMaxAux arr b (c :: cs) =
        firstMaxAux arr (if arr.getD b 0 < arr.getD c 0 then c else b) cs := by
      by_cases h : arr.getD b 0 < arr.getD c 0 <;> simp [firstMaxAux, List.foldl_cons, h]
    by_cases h : arr.getD b 0 < arr.getD c 0
    · rw [List.foldl_cons, if_pos h, hstep, if_pos h]
      exact ih c
    · rw [List.foldl_cons, if_neg h, hstep, if_neg h]
      exact ih b

/-- With at least one candidate, the scan returns the first maximiser. -/
theorem scanHighest_eq_nextSel (arr : List ℚ) (chosen : List ℤ)
    (hne : cands arr chosen ≠ []) :
    scanHighest arr chosen = Int.ofNat (nextSel arr chosen) := by
  rw [scanHighest_eq_cands_foldl]
  rcases hc : cands arr chosen with _ | ⟨c, cs⟩
  · exact absurd hc hne
  have hclt : c < arr.length := ((mem_cands arr chosen c).mp (hc ▸ List.mem_cons_self c cs)).1
  have hfirst : jsMin arr - 1 < arr.getD c 0 :=
    lt_of_lt_of_le (by linarith) (jsMin_le_getD arr c hclt)
  rw [List.foldl_cons, if_pos hfirst, pair_foldl_eq_firstMaxAux, nextSel, hc]

/-- Running `firstMaxAux` over a strictly increasing candidate list is the first
maximiser: it is a candidate, no candidate value exceeds it, and every
strictly smaller candidate index has a strictly smaller value. -/
theorem firstMaxAux_spec (arr : List ℚ) (cs : List ℕ) (b : ℕ)
    (hpw : (b :: cs).Pairwise (· < ·)) :
    firstMaxAux arr b cs ∈ b :: cs ∧
    (∀ j ∈ b :: cs, arr.getD j 0 ≤ arr.getD (firstMaxAux arr b cs) 0) ∧
    (∀ j ∈ b :: cs, j < firstMaxAux arr b cs →
      arr.getD j 0 < arr.getD (firstMaxAux arr b cs) 0) := by
  induction cs generalizing b with
  | nil =>
    refine ⟨List.mem_cons_self b [], ?_, ?_⟩
    · intro j hj
      rw [List.mem_singleton.mp hj]
      exact le_refl _
    · intro j hj hlt
      rw [List.mem_singleton.mp hj] at hlt
      exact absurd hlt (by simp [firstMaxAux])
  | cons c cs ih =>
    have hstep : firstMaxAux arr b (c :: cs) =
        firstMaxAux arr (if arr.getD b 0 < arr.getD c 0 then c else b) cs := by
      by_cases h : arr.getD b 0 < arr.getD c 0 <;> simp [firstMaxAux, List.foldl_cons, h]
    by_cases h : arr.getD b 0 < arr.getD c 0
    · rw [hstep, if_pos h]
      obtain ⟨ihmem, ihmax, ihfirst⟩ := ih c hpw.of_cons
      refine ⟨List.mem_cons_of_mem b ihmem, ?_, ?_⟩
      · intro j hj
        rcases List.mem_cons.mp hj with rfl | hj
        · exact le_of_lt (lt_of_lt_of_le h (ihmax c (List.mem_cons_self c cs)))
        · exact ihmax j hj
      · intro j hj hlt
        rcases List.mem_cons.mp hj with rfl | hj
        · exact lt_of_lt_of_le h (ihmax c (List.mem_cons_self c cs))
        · exact ihfirst j hj hlt
    · rw [hstep, if_neg h]
      push_neg at h
      have hpw' : (b :: cs).Pairwise (· < ·) := by
        rw [List.pairwise_cons] at hpw ⊢
        exact ⟨fun x hx => hpw.1 x (List.mem_cons_of_mem c hx), hpw.2.of_cons⟩
      obtain ⟨ihmem, ihmax, ihfirst⟩ := ih b hpw'
      have hbr : arr.getD b 0 ≤ arr.getD (firstMaxAux arr b cs) 0 :=
        ihmax b (List.mem_cons_self b cs)
      have hcb : b < c := (List.pairwise_cons.mp hpw).1 c (List.mem_cons_self c cs)
      have hcr : arr.getD c 0 ≤ arr.getD (firstMaxAux arr b cs) 0 := le_trans h hbr
      have hcr_strict : c < firstMaxAux arr b cs →
          arr.getD c 0 < arr.getD (firstMaxAux arr b cs) 0 := by
        intro hlt
        rcases List.mem_cons.mp ihmem with hrb | hrcs
        · rw [hrb] at hlt
          exact absurd hlt (not_lt.mpr (le_of_lt hcb))
        · have hbr_lt : b < firstMaxAux arr b cs :=
            (List.pairwise_cons.mp hpw').1 _ hrcs
          exact lt_of_le_of_lt h (ihfirst b (List.mem_cons_self b cs) hbr_lt)
      refine ⟨?_, ?_, ?_⟩
      · rcases List.mem_cons.mp ihmem with hrb | hrcs
        · rw [hrb]; exact List.mem_cons_self b (c :: cs)
        · exact List.mem_cons_of_mem b (List.mem_cons_of_mem c hrcs)
      · intro j hj
        rcases List.mem_cons.mp hj with hjb | hj
        · rw [hjb]; exact hbr
        · rcases List.mem_cons.mp hj with hjc | hj
          · rw [hjc]; exact hcr
          · exact ihmax j (List.mem_cons_of_mem b hj)
      · intro j hj hlt
        rcases List.mem_cons.mp hj with hjb | hj
        · rw [hjb] at hlt ⊢
          exact ihfirst b (List.mem_cons_self b cs) hlt
        · rcases List.mem_cons.mp hj with hjc | hj
          · rw [hjc] at hlt ⊢
            exact hcr_strict hlt
          · exact ihfirst j (List.mem_cons_of_mem b hj) hlt

/-- The next selection is the first maximiser of the remaining candidates. -/
theorem nextSel_spec (arr : List ℚ) (chosen : List ℤ) (hne : cands arr chosen ≠ []) :
    nextSel arr chosen ∈ cands arr chosen ∧
    (∀ j ∈ cands arr chosen, arr.getD j 0 ≤ arr.getD (nextSel arr chosen) 0) ∧
    (∀ j ∈ cands arr chosen, j < nextSel arr chosen →
      arr.getD j 0 < arr.getD (nextSel arr chosen) 0) := by
  rcases hc : cands arr chosen with _ | ⟨c, cs⟩
  · exact absurd hc hne
  have hpw : (c :: cs).Pairwise (· < ·) := hc ▸ cands_pairwise arr chosen
  have hspec := firstMaxAux_spec arr cs c hpw
  have hns : nextSel arr chosen = firstMaxAux arr c cs := by rw [nextSel, hc]
  rw [hns]
  exact hspec

@[simp] theorem selSeq_length (arr : List ℚ) (k : ℕ) : (selSeq arr k).length = k := by
  induction k with
  | zero => rfl
  | succ k ih => simp [selSeq, ih]

theorem selSeq_mem_mono (arr : List ℚ) (i k : ℕ) (hik : i ≤ k) (z : ℤ)
    (hz : z ∈ selSeq arr i) : z ∈ selSeq arr k := by
  induction k with
  | zero => rwa [Nat.le_zero.mp hik] at hz
  | succ k ih =>
    rcases Nat.lt_or_ge i (k + 1) with h | h
    · exact List.mem_append_left _ (ih (Nat.lt_succ_iff.mp h))
    · rwa [Nat.le_antisymm hik h] at hz

theorem cands_ne (arr : List ℚ) (chosen : List ℤ) (hlen : chosen.length < arr.length) :
    cands arr chosen ≠ [] := by
  intro hnil
  have hall : ∀ j ∈ List.range arr.length, Int.ofNat j ∈ chosen := by
    intro j hj
    by_contra hmem
    have : j ∈ cands arr chosen := by
      rw [mem_cands]
      exact ⟨List.mem_range.mp hj, hmem⟩
    rw [hnil] at this
    cases this
  have hsub : (List.range arr.length).map Int.ofNat ⊆ chosen := by
    intro z hz
    obtain ⟨j, hj, rfl⟩ := List.mem_map.mp hz
    exact hall j hj
  have hnd : ((List.range arr.length).map Int.ofNat).Nodup :=
    List.Nodup.map (fun a b hab => Int.ofNat.inj hab) (List.nodup_range _)
  have := (List.subperm_of_subset hnd hsub).length_le
  rw [List.length_map, List.length_range] at this
  omega

theorem selSeq_entries (arr : List ℚ) (k : ℕ) (hk : k ≤ arr.length) :
    ∀ z ∈ selSeq arr k, ∃ j, j < arr.length ∧ z = Int.ofNat j := by
  induction k with
  | zero => intro z hz; cases hz
  | succ k ih =>
    intro z hz
    rcases List.mem_append.mp hz with hz | hz
    · exact ih (Nat.le_of_succ_le hk) z hz
    · have hcne : cands arr (selSeq arr k) ≠ [] :=
        cands_ne arr _ (by rw [selSeq_length]; omega)
      have hmem := (nextSel_spec arr (selSeq arr k) hcne).1
      rw [List.mem_singleton.mp hz]
      exact ⟨nextSel arr (selSeq arr k), ((mem_cands _ _ _).mp hmem).1, rfl⟩

theorem selSeq_nodup (arr : List ℚ) (k : ℕ) (hk : k ≤ arr.length) :
    (selSeq arr k).Nodup := by
  induction k with
  | zero => exact List.nodup_nil
  | succ k ih =>
    have hcne : cands arr (selSeq arr k) ≠ [] :=
      cands_ne arr _ (by rw [selSeq_length]; omega)
    have hnot : Int.ofNat (nextSel arr (selSeq arr k)) ∉ selSeq arr k :=
      ((mem_cands _ _ _).mp (nextSel_spec arr (selSeq arr k) hcne).1).2
    rw [selSeq, List.nodup_append]
    exact ⟨ih (Nat.le_of_succ_le hk), List.nodup_singleton _,
      fun z hz hz' => hnot ((List.mem_singleton.mp hz') ▸ hz)⟩

theorem selSeq_getElem? (arr : List ℚ) (k i : ℕ) (hik : i < k) :
    (selSeq arr k)[i]? = some (Int.ofNat (nextSel arr (selSeq arr i))) := by
  induction k with
  | zero => omega
  | succ k ih =>
    rcases Nat.lt_or_ge i k with h | h
    · rw [selSeq, List.getElem?_append_left (by rw [selSeq_length]; exact h)]
      exact ih h
    · have hik' : i = k := by omega
      subst hik'
      rw [selSeq, List.getElem?_append_right (by rw [selSeq_length])]
      simp

theorem cands_congr (arr : List ℚ) (res₁ res₂ : List ℤ)
    (h : ∀ j : ℕ, Int.ofNat j ∈ res₁ ↔ Int.ofNat j ∈ res₂) :
    cands arr res₁ = cands arr res₂ :=
  List.filter_congr (fun j _ => by rw [decide_eq_decide]; exact not_congr (h j))

theorem scanHighest_congr (arr : List ℚ) (res₁ res₂ : List ℤ)
    (h : ∀ j : ℕ, Int.ofNat j ∈ res₁ ↔ Int.ofNat j ∈ res₂) :
    scanHighest arr res₁ = scanHighest arr res₂ := by
  rw [scanHighest_eq_cands_foldl, scanHighest_eq_cands_foldl, cands_congr arr res₁ res₂ h]

theorem sid_fold_aux (arr : List ℚ) :
    ∀ (m k : ℕ), k + m = arr.length →
      (List.range' k m).foldl (fun res i => res.set i (scanHighest arr res))
        (selSeq arr k ++ List.replicate (arr.length - k) (-1)) =
      selSeq arr arr.length
  | 0, k, hk => by
    have hk' : k = arr.length := by omega
    subst hk'
    simp
  | m + 1, k, hk => by
    have hklt : k < arr.length := by omega
    have hpadmem : ∀ j : ℕ,
        (Int.ofNat j ∈ selSeq arr k ++ List.replicate (arr.length - k) (-1)) ↔
          Int.ofNat j ∈ selSeq arr k := by
      intro j
      rw [List.mem_append]
      constructor
      · rintro (h | h)
        · exact h
        · exact absurd (List.mem_replicate.mp h).2 (by simp)
      · exact fun h => Or.inl h
    have hscan : scanHighest arr (selSeq arr k ++ List.replicate (arr.length - k) (-1)) =
        Int.ofNat (nextSel arr (selSeq arr k)) := by
      rw [scanHighest_congr arr _ _ hpadmem]
      exact scanHighest_eq_nextSel arr _ (cands_ne arr _ (by rw [selSeq_length]; exact hklt))
    have hset : (selSeq arr k ++ List.replicate (arr.length - k) (-1)).set k
          (Int.ofNat (nextSel arr (selSeq arr k))) =
        selSeq arr (k + 1) ++ List.replicate (arr.length - (k + 1)) (-1) := by
      rw [List.set_append, if_neg (by rw [selSeq_length]; omega), selSeq_length,
        Nat.sub_self]
      have hrep : arr.length - k = (arr.length - (k + 1)) + 1 := by omega
      rw [hrep, List.replicate_succ, List.set_cons_zero, selSeq, List.append_cons]
    rw [List.range'_succ, List.foldl_cons, hscan, hset]
    exact sid_fold_aux arr m (k + 1) (by omega)

/-- The source ranking equals the sequence of first-maximiser selections. -/
theorem sid_eq_selSeq (arr : List ℚ) :
    sortIndicesDescending arr = selSeq arr arr.length := by
  have h0 := sid_fold_aux arr arr.length 0 (by omega)
  simpa [sortIndicesDescending, createFilledArray, selSeq, List.range_eq_range'] using h0

@[simp] theorem sid_length (arr : List ℚ) :
    (sortIndicesDescending arr).length = arr.length := by
  rw [sid_eq_selSeq, selSeq_length]

theorem sid_getElem? (arr : List ℚ) (i : ℕ) (hi : i < arr.length) :
    (sortIndicesDescending arr)[i]? = some (Int.ofNat (nextSel arr (selSeq arr i))) := by
  rw [sid_eq_selSeq]
  exact selSeq_getElem? arr arr.length i hi

theorem cands_nil_eq_range (arr : List ℚ) : cands arr [] = List.range arr.length :=
  List.filter_eq_self.mpr (fun a _ => by simp)

theorem specArgmax_eq_nextSel (arr : List ℚ) (hne : arr ≠ []) :
    specArgmax arr = nextSel arr [] := by
  obtain ⟨m, hm⟩ := Nat.exists_eq_succ_of_ne_zero
    (fun h => hne (List.length_eq_zero.mp h))
  have hc : cands arr [] = 0 :: (List.range m).map Nat.succ := by
    rw [cands_nil_eq_range, hm, List.range_succ_eq_map]
  have h1 : nextSel arr [] = firstMaxAux arr 0 ((List.range m).map Nat.succ) := by
    rw [nextSel, hc]
  have h2 : specArgmax arr = firstMaxAux arr 0 ((List.range m).map Nat.succ) := by
    rw [specArgmax, hm, List.range_succ_eq_map, List.foldl_cons, firstMaxAux, ite_self]
  rw [h1, h2]

/-- For a nonempty score vector the engine's winner is the spec arg-max: a
valid index whose score no other index exceeds. -/
theorem winner_spec (arr : List ℚ) (hne : arr ≠ []) :
    (sortIndicesDescending arr).getD 0 (-1) = Int.ofNat (specArgmax arr) ∧
    specArgmax arr < arr.length ∧
    (∀ j, j < arr.length → arr.getD j 0 ≤ arr.getD (specArgmax arr) 0) := by
  have hlen : 0 < arr.length := List.length_pos.mpr hne
  have hcne : cands arr [] ≠ [] := by
    rw [cands_nil_eq_range, Ne, List.range_eq_nil]
    omega
  obtain ⟨hmem, hmax, _⟩ := nextSel_spec arr [] hcne
  have hgd : (sortIndicesDescending arr).getD 0 (-1) = Int.ofNat (nextSel arr []) := by
    rw [List.getD_eq_getElem?_getD]
    have := sid_getElem? arr 0 hlen
    rw [selSeq] at this
    rw [this]
    rfl
  refine ⟨by rw [hgd, specArgmax_eq_nextSel arr hne], ?_, ?_⟩
  · rw [specArgmax_eq_nextSel arr hne]
    exact ((mem_cands _ _ _).mp hmem).1
  · intro j hj
    rw [specArgmax_eq_nextSel arr hne]
    exact hmax j ((mem_cands _ _ _).mpr ⟨hj, by simp⟩)

theorem sid_getD (arr : List ℚ) (i : ℕ) (hi : i < arr.length) :
    (sortIndicesDescending arr).getD i (-1) = Int.ofNat (nextSel arr (selSeq arr i)) := by
  rw [List.getD_eq_getElem?_getD, sid_getElem? arr i hi]
  rfl

theorem sid_perm (arr : List ℚ) :
    (sortIndicesDescending arr).Perm ((List.range arr.length).map Int.ofNat) := by
  rw [sid_eq_selSeq]
  have hnd : (selSeq arr arr.length).Nodup := selSeq_nodup arr arr.length (le_refl _)
  have hsub : selSeq arr arr.length ⊆ (List.range arr.length).map Int.ofNat := by
    intro z hz
    obtain ⟨j, hj, rfl⟩ := selSeq_entries arr arr.length (le_refl _) z hz
    exact List.mem_map.mpr ⟨j, List.mem_range.mpr hj, rfl⟩
  exact (List.subperm_of_subset hnd hsub).perm_of_length_le
    (by rw [List.length_map, List.length_range, selSeq_length])

theorem nextSel_not_chosen_earlier (arr : List ℚ) (i j : ℕ) (hij : j ≤ i)
    (hi : i < arr.length) :
    Int.ofNat (nextSel arr (selSeq arr i)) ∉ selSeq arr j := by
  intro hmem
  have hcne : cands arr (selSeq arr i) ≠ [] :=
    cands_ne arr _ (by rw [selSeq_length]; exact hi)
  have hnot : Int.ofNat (nextSel arr (selSeq arr i)) ∉ selSeq arr i :=
    ((mem_cands _ _ _).mp (nextSel_spec arr (selSeq arr i) hcne).1).2
  exact hnot (selSeq_mem_mono arr j i hij _ hmem)

theorem sid_sorted (arr : List ℚ) (i j : ℕ) (hij : i ≤ j) (hj : j < arr.length) :
    arr.getD ((sortIndicesDescending arr).getD j (-1)).toNat 0 ≤
      arr.getD ((sortIndicesDescending arr).getD i (-1)).toNat 0 := by
  have hi : i < arr.length := lt_of_le_of_lt hij hj
  rw [sid_getD arr i hi, sid_getD arr j hj,
    show (Int.ofNat (nextSel arr (selSeq arr j))).toNat = nextSel arr (selSeq arr j) from rfl,
    show (Int.ofNat (nextSel arr (selSeq arr i))).toNat = nextSel arr (selSeq arr i) from rfl]
  have hcj : cands arr (selSeq arr j) ≠ [] :=
    cands_ne arr _ (by rw [selSeq_length]; exact hj)
  have hci : cands arr (selSeq arr i) ≠ [] :=
    cands_ne arr _ (by rw [selSeq_length]; exact hi)
  have hmemj := (nextSel_spec arr (selSeq arr j) hcj).1
  have hmemi_cands : nextSel arr (selSeq arr j) ∈ cands arr (selSeq arr i) := by
    rw [mem_cands]
    refine ⟨((mem_cands _ _ _).mp hmemj).1, ?_⟩
    intro hmem
    exact ((mem_cands _ _ _).mp hmemj).2 (selSeq_mem_mono arr i j hij _ hmem)
  exact (nextSel_spec arr (selSeq arr i) hci).2.1 _ hmemi_cands

theorem sid_stable (arr : List ℚ) (i j a b : ℕ) (hi : i < arr.length)
    (hj : j < arr.length)
    (ha : (sortIndicesDescending arr).getD i (-1) = Int.ofNat a)
    (hb : (sortIndicesDescending arr).getD j (-1) = Int.ofNat b)
    (hab : a < b) (heq : arr.getD a 0 = arr.getD b 0) : i < j := by
  rw [sid_getD arr i hi] at ha
  rw [sid_getD arr j hj] at hb
  have ha' : nextSel arr (selSeq arr i) = a := Int.ofNat.inj ha
  have hb' : nextSel arr (selSeq arr j) = b := Int.ofNat.inj hb
  by_contra hji
  push_neg at hji
  rcases Nat.lt_or_ge j i with hlt | hge
  · have hcj : cands arr (selSeq arr j) ≠ [] :=
      cands_ne arr _ (by rw [selSeq_length]; exact hj)
    have hamem : a ∈ cands arr (selSeq arr j) := by
      rw [mem_cands]
      constructor
      · have hci : cands arr (selSeq arr i) ≠ [] :=
          cands_ne arr _ (by rw [selSeq_length]; exact hi)
        have := ((mem_cands _ _ _).mp (nextSel_spec arr (selSeq arr i) hci).1).1
        rwa [ha'] at this
      · have := nextSel_not_chosen_earlier arr i j (le_of_lt hlt) hi
        rwa [ha'] at this
    have := (nextSel_spec arr (selSeq arr j) hcj).2.2 a hamem (hb' ▸ hab)
    rw [hb'] at this
    exact absurd heq (ne_of_lt this)
  · have hij' : i = j := le_antisymm hge hji
    rw [hij', hb'] at ha'
    exact absurd ha' (ne_of_lt hab).symm

/-! ### Helper lemmas: the scheduling loop -/

@[simp] theorem length_personScores (s : DutySet) (d t : ℕ) :
    (personScores s d t).length = s.persons.length := by
  simp [personScores]

theorem personScores_ne_nil (s : DutySet) (d t : ℕ) (hne : s.persons ≠ []) :
    personScores s d t ≠ [] := by
  intro h
  apply hne
  have := congrArg List.length h
  rw [length_personScores] at this
  exact List.length_eq_zero.mp this

theorem selectWinner_eq (s : DutySet) (d t : ℕ) (hne : s.persons ≠ []) :
    selectWinner s d t = Int.ofNat (specArgmax (personScores s d t)) ∧
    specArgmax (personScores s d t) < s.persons.length := by
  obtain ⟨h1, h2, _⟩ := winner_spec (personScores s d t) (personScores_ne_nil s d t hne)
  rw [length_personScores] at h2
  exact ⟨h1, h2⟩

theorem scheduleStep_eq (t d : ℕ) (s : DutySet) (hne : s.persons ≠ []) :
    scheduleStep t d s = some (specStep s t d) := by
  obtain ⟨h1, h2⟩ := selectWinner_eq s d t hne
  unfold scheduleStep specStep
  rw [h1, if_pos ⟨by exact Int.ofNat_nonneg _, by simpa using h2⟩]
  rfl

theorem frame_refl (s : DutySet) : Frame s s :=
  ⟨rfl, rfl, rfl, rfl, rfl⟩

theorem frame_trans {s₁ s₂ s₃ : DutySet} (h₁ : Frame s₁ s₂) (h₂ : Frame s₂ s₃) :
    Frame s₁ s₃ :=
  ⟨h₂.1.trans h₁.1, h₂.2.1.trans h₁.2.1, h₂.2.2.1.trans h₁.2.2.1,
   h₂.2.2.2.1.trans h₁.2.2.2.1, h₂.2.2.2.2.trans h₁.2.2.2.2⟩

theorem frame_persons_length {s s' : DutySet} (h : Frame s s') :
    s'.persons.length = s.persons.length := by
  have := congrArg List.length h.2.2.2.1
  simpa using this

theorem frame_persons_ne_nil {s s' : DutySet} (h : Frame s s') (hne : s.persons ≠ []) :
    s'.persons ≠ [] := by
  rw [← List.length_pos] at hne ⊢
  rw [frame_persons_length h]
  exact hne

theorem frame_assignPerson (s : DutySet) (w d t : ℕ) :
    Frame s (assignPerson s w d t) := by
  refine ⟨rfl, rfl, rfl, ?_, ?_⟩
  · exact map_modifyIdx _ _ _ _ (fun p => rfl)
  · exact map_modifyIdx _ _ _ _ (fun p => rfl)

theorem frame_specStep (s : DutySet) (t d : ℕ) : Frame s (specStep s t d) :=
  frame_assignPerson s _ d t

theorem specStep_persons_length (s : DutySet) (t d : ℕ) :
    (specStep s t d).persons.length = s.persons.length :=
  frame_persons_length (frame_specStep s t d)

theorem specStep_numDays (s : DutySet) (t d : ℕ) :
    (specStep s t d).numDays = s.numDays := rfl

theorem foldDays_frame (t : ℕ) (days : List ℕ) (s : DutySet) :
    Frame s (days.foldl (fun st d => specStep st t d) s) := by
  induction days generalizing s with
  | nil => exact frame_refl s
  | cons d days ih =>
    rw [List.foldl_cons]
    exact frame_trans (frame_specStep s t d) (ih (specStep s t d))

theorem foldTypes_frame (ts : List ℕ) (s : DutySet) :
    Frame s (ts.foldl
      (fun st t => (List.range st.numDays).foldl (fun st2 d => specStep st2 t d) st) s) := by
  induction ts generalizing s with
  | nil => exact frame_refl s
  | cons t ts ih =>
    rw [List.foldl_cons]
    exact frame_trans (foldDays_frame t _ s) (ih _)

theorem specCalculateSchedule_frame (s : DutySet) :
    Frame s (specCalculateSchedule s) :=
  foldTypes_frame (List.range s.numDutyTypes) s

theorem foldDays_eq (t : ℕ) (days : List ℕ) (s : DutySet) (hne : s.persons ≠ []) :
    (days.foldlM (fun st d => scheduleStep t d st) s : Option DutySet) =
      some (days.foldl (fun st d => specStep st t d) s) := by
  induction days generalizing s with
  | nil => rfl
  | cons d days ih =>
    rw [List.foldlM_cons, scheduleStep_eq t d s hne, List.foldl_cons]
    have hne' : (specStep s t d).persons ≠ [] :=
      frame_persons_ne_nil (frame_specStep s t d) hne
    simpa using ih (specStep s t d) hne'

theorem foldTypes_eq (ts : List ℕ) (s : DutySet) (hne : s.persons ≠ []) :
    (ts.foldlM
      (fun st t => (List.range st.numDays).foldlM (fun st2 d => scheduleStep t d st2) st)
      s : Option DutySet) =
      some (ts.foldl
        (fun st t => (List.range st.numDays).foldl (fun st2 d => specStep st2 t d) st) s) := by
  induction ts generalizing s with
  | nil => rfl
  | cons t ts ih =>
    rw [List.foldlM_cons, foldDays_eq t _ s hne]
    have hne' := frame_persons_ne_nil (foldDays_frame t (List.range s.numDays) s) hne
    simpa using ih _ hne'

/-- The engine refines the spec fill loop whenever the pool is nonempty. -/
theorem calculateSchedule_eq_spec (dbg : Bool) (s : DutySet) (hne : s.persons ≠ []) :
    calculateSchedule dbg s = some (specCalculateSchedule s) := by
  unfold calculateSchedule specCalculateSchedule
  exact foldTypes_eq (List.range s.numDutyTypes) s hne

/-! ### Helper lemmas: well-formedness and schedule shape -/

theorem mem_modifyIdx {l : List α} {k : ℕ} {f : α → α} {x : α}
    (hx : x ∈ modifyIdx l k f) : x ∈ l ∨ ∃ a ∈ l, x = f a := by
  induction l generalizing k with
  | nil => cases hx
  | cons y ys ih =>
    cases k with
    | zero =>
      rcases List.mem_cons.mp hx with h | h
      · exact Or.inr ⟨y, List.mem_cons_self y ys, h⟩
      · exact Or.inl (List.mem_cons_of_mem y h)
    | succ k =>
      rcases List.mem_cons.mp hx with h | h
      · exact Or.inl (h ▸ List.mem_cons_self y ys)
      · rcases ih h with h' | ⟨a, ha, hfa⟩
        · exact Or.inl (List.mem_cons_of_mem y h')
        · exact Or.inr ⟨a, List.mem_cons_of_mem y ha, hfa⟩

theorem WF_assignPerson (s : DutySet) (w d t : ℕ) (hwf : WF s)
    (ht : t < s.numDutyTypes) : WF (assignPerson s w d t) := by
  intro p hp
  rcases mem_modifyIdx hp with hmem | ⟨q, hq, hpq⟩
  · exact hwf p hmem
  · obtain ⟨hlen, hval⟩ := hwf q hq
    subst hpq
    refine ⟨by simpa using hlen, ?_⟩
    intro a ha
    rcases List.mem_or_eq_of_mem_set ha with h | h
    · exact hval a h
    · right
      subst h
      exact ⟨Int.ofNat_nonneg t, by exact_mod_cast ht⟩

theorem WF_specStep (s : DutySet) (t d : ℕ) (hwf : WF s) (ht : t < s.numDutyTypes) :
    WF (specStep s t d) :=
  WF_assignPerson s _ d t hwf ht

theorem WF_foldDays (t : ℕ) (days : List ℕ) (s : DutySet) (hwf : WF s)
    (ht : t < s.numDutyTypes) :
    WF (days.foldl (fun st d => specStep st t d) s) := by
  induction days generalizing s with
  | nil => exact hwf
  | cons d days ih =>
    rw [List.foldl_cons]
    exact ih (specStep s t d) (WF_specStep s t d hwf ht) ht

theorem hasAssigned_assignPerson_other (s : DutySet) (w e tw t d : ℕ) (hde : d ≠ e)
    (h : HasAssigned t d s) : HasAssigned t d (assignPerson s w e tw) := by
  obtain ⟨i, p, hip, hpd⟩ := h
  by_cases hiw : i = w
  · subst hiw
    refine ⟨i, { p with assignments := p.assignments.set e (tw : ℤ) }, ?_, ?_⟩
    · show (modifyIdx s.persons i _)[i]? = _
      rw [getElem?_modifyIdx, if_pos rfl, hip]
      rfl
    · show (p.assignments.set e (tw : ℤ)).getD d (-1) = (t : ℤ)
      rw [List.getD_eq_getElem?_getD, List.getElem?_set_ne (fun h => hde h.symm),
        ← List.getD_eq_getElem?_getD]
      exact hpd
  · refine ⟨i, p, ?_, hpd⟩
    show (modifyIdx s.persons w _)[i]? = _
    rw [getElem?_modifyIdx, if_neg hiw]
    exact hip

theorem hasAssigned_specStep (s : DutySet) (t d : ℕ) (hwf : WF s)
    (hne : s.persons ≠ []) (hd : d < s.numDays) : HasAssigned t d (specStep s t d) := by
  obtain ⟨-, hlt⟩ := selectWinner_eq s d t hne
  refine ⟨specArgmax (personScores s d t),
    { s.persons[specArgmax (personScores s d t)] with
      assignments :=
        (s.persons[specArgmax (personScores s d t)]).assignments.set d (t : ℤ) },
    ?_, ?_⟩
  · show (modifyIdx s.persons _ _)[specArgmax (personScores s d t)]? = _
    rw [getElem?_modifyIdx, if_pos rfl, List.getElem?_eq_getElem hlt]
    rfl
  · have hmem : s.persons[specArgmax (personScores s d t)] ∈ s.persons :=
      List.getElem_mem hlt
    have hlen : (s.persons[specArgmax (personScores s d t)]).assignments.length =
        s.numDays := (hwf _ hmem).1
    show ((s.persons[specArgmax (personScores s d t)]).assignments.set d
      (t : ℤ)).getD d (-1) = (t : ℤ)
    rw [List.getD_eq_getElem?_getD, List.getElem?_set_self (by rw [hlen]; exact hd)]
    rfl

theorem hasAssigned_foldDays_preserve (t tw : ℕ) (days : List ℕ) (s : DutySet)
    (d : ℕ) (hnotin : d ∉ days) (h : HasAssigned t d s) :
    HasAssigned t d (days.foldl (fun st e => specStep st tw e) s) := by
  induction days generalizing s with
  | nil => exact h
  | cons e days ih =>
    rw [List.foldl_cons]
    have hde : d ≠ e := fun hh => hnotin (hh ▸ List.mem_cons_self e days)
    have hnotin' : d ∉ days := fun hh => hnotin (List.mem_cons_of_mem e hh)
    exact ih (specStep s tw e) hnotin'
      (hasAssigned_assignPerson_other s _ e tw t d hde h)

theorem hasAssigned_foldDays (t : ℕ) (days : List ℕ) (s : DutySet) (hwf : WF s)
    (hne : s.persons ≠ []) (ht : t < s.numDutyTypes) (hnd : days.Nodup)
    (hdays : ∀ d ∈ days, d < s.numDays) :
    ∀ d ∈ days, HasAssigned t d (days.foldl (fun st d => specStep st t d) s) := by
  induction days generalizing s with
  | nil => intro d hd; cases hd
  | cons e days ih =>
    intro d hd
    rw [List.foldl_cons]
    have hwf' : WF (specStep s t e) := WF_specStep s t e hwf ht
    have hne' : (specStep s t e).persons ≠ [] :=
      frame_persons_ne_nil (frame_specStep s t e) hne
    have hnd' : days.Nodup := hnd.of_cons
    have hdays' : ∀ d ∈ days, d < (specStep s t e).numDays := fun d hd =>
      hdays d (List.mem_cons_of_mem e hd)
    rcases List.mem_cons.mp hd with hde | hdin
    · subst hde
      have hstart : HasAssigned t d (specStep s t d) :=
        hasAssigned_specStep s t d hwf hne (hdays d (List.mem_cons_self d days))
      exact hasAssigned_foldDays_preserve t t days (specStep s t d) d
        (List.nodup_cons.mp hnd).1 hstart
    · exact ih (specStep s t e) hwf' hne' ht hnd' hdays' d hdin

theorem WF_foldTypes (ts : List ℕ) (s : DutySet) (hwf : WF s)
    (hts : ∀ t ∈ ts, t < s.numDutyTypes) :
    WF (ts.foldl
      (fun st t => (List.range st.numDays).foldl (fun st2 d => specStep st2 t d) st) s) := by
  induction ts generalizing s with
  | nil => exact hwf
  | cons t ts ih =>
    rw [List.foldl_cons]
    have hmid : WF ((List.range s.numDays).foldl (fun st2 d => specStep st2 t d) s) :=
      WF_foldDays t _ s hwf (hts t (List.mem_cons_self t ts))
    apply ih _ hmid
    intro u hu
    have hfr := foldDays_frame t (List.range s.numDays) s
    rw [hfr.2.1]
    exact hts u (List.mem_cons_of_mem t hu)

/-- After the full spec fill loop, every day carries the last duty type. -/
theorem specCalc_fills_last (s : DutySet) (hwf : WF s) (hne : s.persons ≠ [])
    (hT : 0 < s.numDutyTypes) :
    ∀ d < s.numDays, HasAssigned (s.numDutyTypes - 1) d (specCalculateSchedule s) := by
  intro d hd
  obtain ⟨m, hm⟩ := Nat.exists_eq_succ_of_ne_zero (Nat.pos_iff_ne_zero.mp hT)
  have hfr : Frame s ((List.range m).foldl
      (fun st t => (List.range st.numDays).foldl (fun st2 dd => specStep st2 t dd) st) s) :=
    foldTypes_frame (List.range m) s
  have hsplit : specCalculateSchedule s =
      (List.range ((List.range m).foldl
          (fun st t => (List.range st.numDays).foldl (fun st2 dd => specStep st2 t dd) st)
          s).numDays).foldl
        (fun st2 dd => specStep st2 m dd)
        ((List.range m).foldl
          (fun st t => (List.range st.numDays).foldl (fun st2 dd => specStep st2 t dd) st)
          s) := by
    unfold specCalculateSchedule
    rw [hm, List.range_succ, List.foldl_append, List.foldl_cons, List.foldl_nil]
  have hwfmid : WF ((List.range m).foldl
      (fun st t => (List.range st.numDays).foldl (fun st2 dd => specStep st2 t dd) st) s) :=
    WF_foldTypes (List.range m) s hwf
      (fun t ht => by rw [hm]; exact Nat.lt_succ_of_lt (List.mem_range.mp ht))
  have hnemid := frame_persons_ne_nil hfr hne
  have hmmid : m < ((List.range m).foldl
      (fun st t => (List.range st.numDays).foldl (fun st2 dd => specStep st2 t dd) st)
        s).numDutyTypes := by
    rw [hfr.2.1, hm]
    exact Nat.lt_succ_self m
  have hdmid : d < ((List.range m).foldl
      (fun st t => (List.range st.numDays).foldl (fun st2 dd => specStep st2 t dd) st)
        s).numDays := by
    rw [hfr.1]
    exact hd
  have hfill := hasAssigned_foldDays m (List.range _) _ hwfmid hnemid hmmid
    (List.nodup_range _) (fun e he => List.mem_range.mp he) d (List.mem_range.mpr hdmid)
  rw [hsplit, show s.numDutyTypes - 1 = m by omega]
  exact hfill

theorem scheduleEntry_isSome_of_hasAssigned (s : DutySet) (d t : ℕ)
    (h : HasAssigned t d s) : (scheduleEntry s d t).isSome = true := by
  obtain ⟨i, p, hip, hpd⟩ := h
  have hmem : p ∈ s.persons := by
    obtain ⟨hlt, hval⟩ := List.getElem?_eq_some.mp hip
    exact hval ▸ List.getElem_mem hlt
  have hfil : p ∈ s.persons.filter (fun q => q.assignments.getD d (-1) == (t : ℤ)) :=
    List.mem_filter.mpr ⟨hmem, beq_iff_eq.mpr hpd⟩
  have hgl : ((s.persons.filter
      (fun q => q.assignments.getD d (-1) == (t : ℤ))).getLast?).isSome = true :=
    List.getLast?_isSome.mpr (List.ne_nil_of_mem hfil)
  rw [scheduleEntry]
  cases hx : (s.persons.filter (fun q => q.assignments.getD d (-1) == (t : ℤ))).getLast? with
  | none => rw [hx] at hgl; cases hgl
  | some x => rfl

/-! ### Helper lemmas: duty counts, averages and score bounds -/

theorem length_getNumDuties (T : ℕ) (p : Person) : (getNumDuties T p).length = T := by
  unfold getNumDuties
  generalize hacc : createFilledArray (0 : ℕ) T = acc
  have hlen : acc.length = T := by rw [← hacc]; simp [createFilledArray]
  clear hacc
  induction p.assignments generalizing acc with
  | nil => exact hlen
  | cons a l ih =>
    rw [List.foldl_cons]
    by_cases ha : a = -1
    · rw [if_pos ha]
      exact ih acc hlen
    · rw [if_neg ha]
      exact ih _ (by rw [length_incrAt]; exact hlen)

theorem getNumDuties_count_aux (t : ℕ) (l : List ℤ) (acc : List ℕ) (c : ℕ)
    (hacc : acc[t]? = some c) (hval : ∀ a ∈ l, a = -1 ∨ 0 ≤ a) :
    (l.foldl (fun res a => if a = -1 then res else incrAt res a.toNat) acc)[t]? =
      some (c + l.count (t : ℤ)) := by
  induction l generalizing acc c with
  | nil => simpa using hacc
  | cons a l ih =>
    rw [List.foldl_cons]
    have hval' : ∀ a ∈ l, a = -1 ∨ 0 ≤ a := fun x hx => hval x (List.mem_cons_of_mem a hx)
    by_cases ha : a = -1
    · rw [if_pos ha, List.count_cons, ih acc c hacc hval']
      have : (a == (t : ℤ)) = false := by
        rw [beq_eq_false_iff_ne, ha]
        intro hcontra
        omega
      rw [this]
      simp
    · rw [if_neg ha]
      have hnn : 0 ≤ a := (hval a (List.mem_cons_self a l)).resolve_left ha
      by_cases hat : a.toNat = t
      · have haz : a = (t : ℤ) := by
          rw [← hat, Int.toNat_of_nonneg hnn]
        have hstep : (incrAt acc a.toNat)[t]? = some (c + 1) := by
          rw [getElem?_incrAt, if_pos hat.symm, hacc]
          rfl
        rw [ih _ _ hstep hval', List.count_cons, if_pos (beq_iff_eq.mpr haz)]
        exact congrArg some (by omega)
      · have haz : (a == (t : ℤ)) = false := by
          rw [beq_eq_false_iff_ne]
          intro hcontra
          exact hat (by rw [hcontra]; rfl)
        have hstep : (incrAt acc a.toNat)[t]? = some c := by
          rw [getElem?_incrAt, if_neg (fun h => hat h.symm)]
          exact hacc
        rw [ih _ _ hstep hval', List.count_cons, haz]
        simp

theorem getNumDuties_getD_eq_count (T : ℕ) (p : Person) (t : ℕ) (ht : t < T)
    (hval : ∀ a ∈ p.assignments, a = -1 ∨ 0 ≤ a) :
    (getNumDuties T p).getD t 0 = p.assignments.count (t : ℤ) := by
  unfold getNumDuties
  have hacc : (createFilledArray (0 : ℕ) T)[t]? = some 0 := by
    simp [createFilledArray, List.getElem?_replicate, ht]
  rw [List.getD_eq_getElem?_getD, getNumDuties_count_aux t p.assignments _ 0 hacc hval]
  simp

theorem getNumDutiesOfType_eq_count (T : ℕ) (p : Person) (t : ℕ) (ht : t < T)
    (hval : ∀ a ∈ p.assignments, a = -1 ∨ 0 ≤ a) :
    getNumDutiesOfType T p t = p.assignments.count (t : ℤ) :=
  getNumDuties_getD_eq_count T p t ht hval

theorem zipfold_getElem? (vs : List (List ℕ)) (acc : List ℕ) (t c : ℕ)
    (hacc : acc[t]? = some c) (hlen : ∀ v ∈ vs, v.length = acc.length) :
    (vs.foldl (fun a v => List.zipWith (· + ·) a v) acc)[t]? =
      some (c + (vs.map (fun v => v.getD t 0)).sum) := by
  induction vs generalizing acc c with
  | nil => simpa using hacc
  | cons v vs ih =>
    rw [List.foldl_cons]
    have htlt : t < acc.length := by
      by_contra hge
      rw [List.getElem?_eq_none (le_of_not_lt hge)] at hacc
      cases hacc
    have hvlen : v.length = acc.length := hlen v (List.mem_cons_self v vs)
    have hvt : v[t]? = some (v.getD t 0) := by
      rw [List.getD_eq_getElem?_getD, List.getElem?_eq_getElem (by omega)]
      rfl
    have hstep : (List.zipWith (· + ·) acc v)[t]? = some (c + v.getD t 0) := by
      rw [List.getElem?_zipWith, hacc, hvt]
    have hlen' : ∀ u ∈ vs, u.length = (List.zipWith (· + ·) acc v).length := by
      intro u hu
      rw [List.length_zipWith, hvlen, min_self]
      exact hlen u (List.mem_cons_of_mem v hu)
    rw [ih _ _ hstep hlen', List.map_cons, List.sum_cons]
    exact congrArg some (by omega)

theorem calculateDutyAverage_getD (persons : List Person) (T t : ℕ) (ht : t < T) :
    (calculateDutyAverage persons T).getD t 0 =
      ((persons.map (fun p => (getNumDuties T p).getD t 0)).sum : ℚ) /
        (persons.length : ℚ) := by
  unfold calculateDutyAverage
  have hacc : (createFilledArray (0 : ℕ) T)[t]? = some 0 := by
    simp [createFilledArray, List.getElem?_replicate, ht]
  have hlen : ∀ v ∈ persons.map (getNumDuties T), v.length =
      (createFilledArray (0 : ℕ) T).length := by
    intro v hv
    obtain ⟨p, _, rfl⟩ := List.mem_map.mp hv
    rw [length_getNumDuties]
    simp [createFilledArray]
  rw [List.getD_eq_getElem?_getD, List.getElem?_map,
    zipfold_getElem? (persons.map (getNumDuties T)) _ t 0 hacc hlen]
  rw [List.map_map]
  norm_num [Function.comp]
  rfl

theorem calculateDutyAverage_le (persons : List Person) (T t N : ℕ) (ht : t < T)
    (hcnt : ∀ p ∈ persons, (getNumDuties T p).getD t 0 ≤ N) :
    (calculateDutyAverage persons T).getD t 0 ≤ (N : ℚ) := by
  rw [calculateDutyAverage_getD persons T t ht]
  have hsum : (persons.map (fun p => (getNumDuties T p).getD t 0)).sum ≤
      persons.length * N := by
    have := List.sum_le_card_nsmul (persons.map (fun p => (getNumDuties T p).getD t 0)) N
      (by
        intro x hx
        obtain ⟨p, hp, rfl⟩ := List.mem_map.mp hx
        exact hcnt p hp)
    simpa [smul_eq_mul] using this
  by_cases hlen : persons.length = 0
  · rw [hlen]
    norm_num
  have hpos : (0 : ℚ) < (persons.length : ℚ) := by
    exact_mod_cast Nat.pos_of_ne_zero hlen
  rw [div_le_iff₀ hpos]
  calc ((persons.map (fun p => (getNumDuties T p).getD t 0)).sum : ℚ)
      ≤ ((persons.length * N : ℕ) : ℚ) := by exact_mod_cast hsum
    _ = (N : ℚ) * (persons.length : ℚ) := by push_cast; ring

theorem personScores_getD (s : DutySet) (d t i : ℕ) (hi : i < s.persons.length) :
    (personScores s d t).getD i 0 =
      getDutyScoreOfType s (s.persons.get ⟨i, hi⟩) d t
        (calculateDutyAverage s.persons s.numDutyTypes) := by
  unfold personScores
  rw [List.getD_eq_getElem?_getD, List.getElem?_map, List.getElem?_eq_getElem hi]
  rfl

/-- Under the default config a non-vetoed candidate scores at least `-70`. -/
theorem getDutyScore_lower (s : DutySet) (p : Person) (d B : ℕ) (avg : List ℚ)
    (hcfg : s.config = defaultConfig)
    (hok : p.assignments.getD d (-1) = -1 ∨ p.assignments.getD d (-1) = (B : ℤ)) :
    (-70 : ℚ) ≤ getDutyScoreOfType s p d B avg := by
  have h5 : ¬(p.assignments.getD d (-1) ≠ -1 ∧ p.assignments.getD d (-1) ≠ (B : ℤ)) := by
    rcases hok with h | h
    · exact fun hc => hc.1 h
    · exact fun hc => hc.2 h
  simp only [getDutyScoreOfType, hcfg, defaultConfig, if_neg h5]
  have hcnt : (0 : ℚ) ≤ ((getNumDutiesOfType s.numDutyTypes p B : ℕ) : ℚ) :=
    Nat.cast_nonneg _
  split_ifs <;> nlinarith

/-- Under the default config a vetoed candidate scores at most
`100 + 50·numDays − 10000`. -/
theorem getDutyScore_upper_vetoed (s : DutySet) (p : Person) (d A B : ℕ)
    (avg : List ℚ) (hcfg : s.config = defaultConfig)
    (hA : p.assignments.getD d (-1) = (A : ℤ)) (hAB : A ≠ B)
    (havg : avg.getD B 0 ≤ (s.numDays : ℚ)) :
    getDutyScoreOfType s p d B avg ≤ 100 + 50 * (s.numDays : ℚ) - 10000 := by
  have h5 : p.assignments.getD d (-1) ≠ -1 ∧ p.assignments.getD d (-1) ≠ (B : ℤ) := by
    constructor
    · rw [hA]; simp
    · rw [hA]
      intro hc
      exact hAB (by exact_mod_cast hc)
  simp only [getDutyScoreOfType, hcfg, defaultConfig, if_pos h5]
  have hcnt : (0 : ℚ) ≤ ((getNumDutiesOfType s.numDutyTypes p B : ℕ) : ℚ) :=
    Nat.cast_nonneg _
  have hnd : (0 : ℚ) ≤ (s.numDays : ℚ) := Nat.cast_nonneg _
  split_ifs <;> nlinarith

theorem getD_replicate_of_lt {a d : α} {n t : ℕ} (ht : t < n) :
    (List.replicate n a).getD t d = a := by
  rw [List.getD_eq_getElem?_getD, List.getElem?_replicate, if_pos ht]
  rfl

/-! ### Claim theorems -/

unseal Rat.mul Rat.inv Rat.add Rat.sub in
/-- C2 counterexample: on a 6-day, 2-duty-type, 3-person duty set the code's
target is `numDays / persons.length = 2`, not
`numDutyTypes * numDays / persons.length = 4` as the claim states. -/
theorem C2_counterexample :
    getTargetNumDutiesOfType targetDemoSet 0 ≠
      (targetDemoSet.numDutyTypes : ℚ) * (targetDemoSet.numDays : ℚ) /
        (targetDemoSet.persons.length : ℚ) := by decide

/-- C2 (amended): for every DutySet with at least one person and every valid
duty type index, `getTargetNumDutiesOfType` equals `numDays / persons.length`
(no `numDutyTypes` factor), with the identical value for all duty types. -/
theorem C2_target_amended (s : DutySet) (t : ℕ) (ht : t < s.numDutyTypes)
    (hne : s.persons ≠ []) :
    getTargetNumDutiesOfType s t = (s.numDays : ℚ) / (s.persons.length : ℚ) ∧
    ∀ u, u < s.numDutyTypes →
      getTargetNumDutiesOfType s u = getTargetNumDutiesOfType s t := by
  constructor
  · unfold getTargetNumDutiesOfType getTargetNumDuties createFilledArray
    exact getD_replicate_of_lt ht
  · intro u hu
    unfold getTargetNumDutiesOfType getTargetNumDuties createFilledArray
    rw [getD_replicate_of_lt hu, getD_replicate_of_lt ht]

/-- C2 witness: the amended statement evaluated on the 6-day, 2-type,
3-person fixture. -/
theorem C2_target_witness :
    getTargetNumDutiesOfType targetDemoSet 0 =
      (targetDemoSet.numDays : ℚ) / (targetDemoSet.persons.length : ℚ) :=
  (C2_target_amended targetDemoSet 0 (by decide) (by decide)).1

unseal Rat.mul Rat.inv Rat.add Rat.sub in
/-- C6 counterexample: computing the population average with zero persons
returns a plain vector (the JavaScript `0/0` entries are `NaN`, the model's
are `0`) — no error of any kind is raised, contradicting the claimed
`EmptyPersonPool` failure. -/
theorem C6_counterexample : calculateDutyAverage [] 2 = [0, 0] := by decide

/-- C6 (amended): `calculateDutyAverage` with zero persons returns a
`numDutyTypes`-length vector rather than failing, and `calculateSchedule` on
an empty pool with positive dimensions crashes by indexing an undefined
person (`TypeError`, modelled as `none`), not with an `EmptyPersonPool`
error, which does not exist in the code. -/
theorem C6_empty_pool (T : ℕ) (s : DutySet) (dbg : Bool) (hs : s.persons = [])
    (hday : 0 < s.numDays) (htyp : 0 < s.numDutyTypes) :
    calculateDutyAverage [] T = List.replicate T 0 ∧
    calculateSchedule dbg s = none := by
  constructor
  · unfold calculateDutyAverage createFilledArray
    rw [List.map_nil, List.foldl_nil, List.map_replicate]
    simp
  · have hstep : ∀ t d, scheduleStep t d s = none := by
      intro t d
      unfold scheduleStep selectWinner personScores sortIndicesDescending createFilledArray
      rw [hs]
      simp
    unfold calculateSchedule
    obtain ⟨m, hm⟩ := Nat.exists_eq_succ_of_ne_zero (Nat.pos_iff_ne_zero.mp htyp)
    obtain ⟨k, hk⟩ := Nat.exists_eq_succ_of_ne_zero (Nat.pos_iff_ne_zero.mp hday)
    rw [hm, List.range_succ_eq_map, List.foldlM_cons, hk, List.range_succ_eq_map,
      List.foldlM_cons, hstep 0 0]
    rfl

/-- C6 witness: the amended statement on a concrete pool-less duty set with
one day and one duty type. -/
theorem C6_empty_pool_witness :
    calculateDutyAverage [] 1 = List.replicate 1 0 ∧
    calculateSchedule false emptyPoolSet = none :=
  C6_empty_pool 1 emptyPoolSet false (by decide) (by decide) (by decide)

/-- C7 counterexample: constructing a Person with an empty availability
pattern succeeds (no `InvalidAvailabilityPattern` error exists in the code);
the availability entries are all `undefined` because `i % 0` is `NaN`. -/
theorem C7_counterexample :
    mkPerson "A" [] (mkDutySet 3 1 defaultConfig) =
      { name := "A", availability := [none, none, none],
        assignments := [-1, -1, -1] } := by decide

/-- C7 (amended): the Person constructor performs no validation; with an
empty pattern it produces a Person whose availability has length `numDays`
with every entry `undefined`, instead of failing. -/
theorem C7_empty_pattern_no_error (name : String) (ds : DutySet) :
    (mkPerson name [] ds).availability = List.replicate ds.numDays none ∧
    (mkPerson name [] ds).assignments = List.replicate ds.numDays (-1) ∧
    (mkPerson name [] ds).name = name := by
  refine ⟨?_, rfl, rfl⟩
  unfold mkPerson calculateArray
  rw [List.map_eq_replicate_iff.mpr ?_]
  · rw [List.length_range]
  · intro x hx
    rfl

/-- C8: a Person built from a nonempty pattern of length `L` for a duty set
with `numDays = N` has an availability of exactly length `N` whose entry `i`
is `pattern[i mod L]` (a defined boolean) for every `i < N`. -/
theorem C8_pattern_recycled (name : String) (pattern : List Bool) (ds : DutySet)
    (hne : pattern ≠ []) :
    (mkPerson name pattern ds).availability.length = ds.numDays ∧
    ∀ i, i < ds.numDays →
      (mkPerson name pattern ds).availability.getD i none =
        pattern[i % pattern.length]? ∧
      (pattern[i % pattern.length]?).isSome = true := by
  constructor
  · unfold mkPerson
    exact length_calculateArray _ _
  · intro i hi
    have hmod : i % pattern.length < pattern.length :=
      Nat.mod_lt i (List.length_pos.mpr hne)
    constructor
    · unfold mkPerson
      rw [List.getD_eq_getElem?_getD, getElem?_calculateArray _ _ _ hi]
      rfl
    · rw [List.getElem?_eq_getElem hmod]
      rfl

/-- C8 witness: the pattern `[true, false]` recycled over 5 days; day 3 reads
`pattern[3 mod 2] = pattern[1] = false`. -/
theorem C8_pattern_recycled_witness :
    (mkPerson "W" [true, false] patternDemoSet).availability.length = 5 ∧
    (mkPerson "W" [true, false] patternDemoSet).availability.getD 3 none =
      some false := by
  have h := C8_pattern_recycled "W" [true, false] patternDemoSet (by decide)
  refine ⟨h.1, ?_⟩
  rw [(h.2 3 (by decide)).1]
  rfl

unseal Rat.mul Rat.inv Rat.add Rat.sub in
/-- C9: `calculateSchedule` is not idempotent — on a 3-day, 1-duty-type,
2-person duty set the second invocation starts from the already-filled
assignments (nothing resets them) and ends in a different state than the
single run on the identically-constructed fresh duty set. -/
theorem C9_not_idempotent :
    (calculateSchedule false pairSet).bind (calculateSchedule false) ≠
      calculateSchedule false pairSet ∧
    (calculateSchedule false pairSet).map (fun s => s.persons.map Person.assignments) =
      some [[0, -1, 0], [-1, 0, -1]] ∧
    ((calculateSchedule false pairSet).bind (calculateSchedule false)).map
        (fun s => s.persons.map Person.assignments) =
      some [[0, 0, 0], [0, 0, 0]] := by
  refine ⟨by decide, by decide, by decide⟩

/-- C1: with a nonempty pool, `calculateSchedule` computes exactly the
spec-transcribed fill loop `specCalculateSchedule` — outer loop over duty
types, inner loop over days, averages recomputed at every `(day, dutyType)`
pair, every person scored, the top-ranked person assigned — so the entire
pass for duty type 0 is committed before the pass for duty type 1 starts. -/
theorem C1_loop_refinement (dbg : Bool) (s : DutySet) (hne : s.persons ≠ []) :
    calculateSchedule dbg s = some (specCalculateSchedule s) :=
  calculateSchedule_eq_spec dbg s hne

/-- C1 witness: the refinement evaluated on a 2-day, 2-duty-type, 2-person
duty set. -/
theorem C1_loop_refinement_witness :
    calculateSchedule false refineDemoSet = some (specCalculateSchedule refineDemoSet) :=
  C1_loop_refinement false refineDemoSet (by decide)

unseal Rat.mul Rat.inv Rat.add Rat.sub in
/-- C5: the ranking is a permutation of the indices `0..n-1`; positions are
ordered from highest to lowest score; on equal scores the lower index comes
first; and the two test vectors of the repository rank as the spec says. -/
theorem C5_ranker (arr : List ℚ) :
    (sortIndicesDescending arr).Perm ((List.range arr.length).map Int.ofNat) ∧
    (∀ i j : ℕ, i ≤ j → j < arr.length →
      arr.getD ((sortIndicesDescending arr).getD j (-1)).toNat 0 ≤
        arr.getD ((sortIndicesDescending arr).getD i (-1)).toNat 0) ∧
    (∀ i j a b : ℕ, i < arr.length → j < arr.length →
      (sortIndicesDescending arr).getD i (-1) = Int.ofNat a →
      (sortIndicesDescending arr).getD j (-1) = Int.ofNat b →
      a < b → arr.getD a 0 = arr.getD b 0 → i < j) ∧
    sortIndicesDescending [10, 20, 30] = [2, 1, 0] ∧
    sortIndicesDescending [-50, 30, 0] = [1, 2, 0] :=
  ⟨sid_perm arr,
   fun i j hij hj => sid_sorted arr i j hij hj,
   fun i j a b hi hj ha hb hab heq => sid_stable arr i j a b hi hj ha hb hab heq,
   by decide, by decide⟩

/-- C5 witness: the ranking properties evaluated at `[10, 20, 30]`. -/
theorem C5_ranker_witness :
    sortIndicesDescending [10, 20, 30] = [2, 1, 0] ∧
    (sortIndicesDescending [10, 20, 30]).Perm
      ((List.range ([10, 20, 30] : List ℚ).length).map Int.ofNat) := by
  have h := C5_ranker [10, 20, 30]
  exact ⟨h.2.2.2.1, h.1⟩

/-- C10: `calculateSchedule` mutates only assignment slots: whatever the
`debug` flag, it succeeds on a nonempty pool with the same final state, and
the dimensions, merged config, and every person's name and availability (in
pool order) are unchanged. -/
theorem C10_frame_effect (s : DutySet) (dbg dbg' : Bool) (hne : s.persons ≠ []) :
    ∃ s', calculateSchedule dbg s = some s' ∧ calculateSchedule dbg' s = some s' ∧
      s'.numDays = s.numDays ∧ s'.numDutyTypes = s.numDutyTypes ∧
      s'.config = s.config ∧
      s'.persons.map Person.name = s.persons.map Person.name ∧
      s'.persons.map Person.availability = s.persons.map Person.availability ∧
      s'.persons.length = s.persons.length := by
  refine ⟨specCalculateSchedule s, calculateSchedule_eq_spec dbg s hne,
    calculateSchedule_eq_spec dbg' s hne, ?_⟩
  have hfr := specCalculateSchedule_frame s
  exact ⟨hfr.1, hfr.2.1, hfr.2.2.1, hfr.2.2.2.1, hfr.2.2.2.2, frame_persons_length hfr⟩

/-- C10 witness: the frame property on a 2-day, 1-duty-type, 2-person duty
set, with `debug` true for one call and false for the other. -/
theorem C10_frame_effect_witness :
    ∃ s', calculateSchedule true frameDemoSet = some s' ∧
      calculateSchedule false frameDemoSet = some s' ∧
      s'.numDays = frameDemoSet.numDays ∧ s'.numDutyTypes = frameDemoSet.numDutyTypes ∧
      s'.config = frameDemoSet.config ∧
      s'.persons.map Person.name = frameDemoSet.persons.map Person.name ∧
      s'.persons.map Person.availability = frameDemoSet.persons.map Person.availability ∧
      s'.persons.length = frameDemoSet.persons.length :=
  C10_frame_effect frameDemoSet true false (by decide)

unseal Rat.mul Rat.inv Rat.add Rat.sub in
/-- C3 counterexample: one person, two duty types, one day.  The run
succeeds, but the single day's mapping holds exactly one entry (duty type 1),
not `numDutyTypes = 2`: the person won both slots and the type-1 assignment
overwrote the type-0 one. -/
theorem C3_counterexample :
    (calculateSchedule false soloSet).map getSchedule = some [[none, some "A"]] ∧
    (calculateSchedule false soloSet).map
        (fun s' => (((getSchedule s').getD 0 []).filter Option.isSome).length) =
      some 1 ∧
    soloSet.numDutyTypes = 2 :=
  ⟨by decide, by decide, by decide⟩

/-- C3 (amended): for every well-formed DutySet with a nonempty pool the run
succeeds, `getSchedule` has length `numDays`, and each day's mapping has at
most `numDutyTypes` entries — at least one of them (the last duty type)
whenever `numDutyTypes ≥ 1`; exactly `numDutyTypes` entries is not
guaranteed. -/
theorem C3_schedule_shape (s : DutySet) (dbg : Bool) (hwf : WF s)
    (hne : s.persons ≠ []) :
    ∃ s', calculateSchedule dbg s = some s' ∧
      (getSchedule s').length = s.numDays ∧
      (∀ day ∈ getSchedule s', day.length = s.numDutyTypes ∧
        (day.filter Option.isSome).length ≤ s.numDutyTypes) ∧
      (0 < s.numDutyTypes →
        ∀ day ∈ getSchedule s', 1 ≤ (day.filter Option.isSome).length) := by
  have hfr := specCalculateSchedule_frame s
  refine ⟨specCalculateSchedule s, calculateSchedule_eq_spec dbg s hne, ?_, ?_, ?_⟩
  · simp [getSchedule, hfr.1]
  · intro day hday
    obtain ⟨d, -, rfl⟩ := List.mem_map.mp hday
    constructor
    · simp [hfr.2.1]
    · calc ((List.range (specCalculateSchedule s).numDutyTypes).map
            (fun t => scheduleEntry (specCalculateSchedule s) d t)
            |>.filter Option.isSome).length
          ≤ ((List.range (specCalculateSchedule s).numDutyTypes).map
            (fun t => scheduleEntry (specCalculateSchedule s) d t)).length :=
            List.length_filter_le _ _
        _ = s.numDutyTypes := by simp [hfr.2.1]
  · intro hT day hday
    obtain ⟨d, hd, rfl⟩ := List.mem_map.mp hday
    have hdlt : d < s.numDays := by
      have := List.mem_range.mp hd
      rwa [hfr.1] at this
    have hfill : HasAssigned (s.numDutyTypes - 1) d (specCalculateSchedule s) :=
      specCalc_fills_last s hwf hne hT d hdlt
    have hsome := scheduleEntry_isSome_of_hasAssigned _ d _ hfill
    have hmem : scheduleEntry (specCalculateSchedule s) d (s.numDutyTypes - 1) ∈
        (List.range (specCalculateSchedule s).numDutyTypes).map
          (fun t => scheduleEntry (specCalculateSchedule s) d t) := by
      apply List.mem_map.mpr
      refine ⟨s.numDutyTypes - 1, ?_, rfl⟩
      rw [List.mem_range, hfr.2.1]
      omega
    have : scheduleEntry (specCalculateSchedule s) d (s.numDutyTypes - 1) ∈
        ((List.range (specCalculateSchedule s).numDutyTypes).map
          (fun t => scheduleEntry (specCalculateSchedule s) d t)).filter
          Option.isSome :=
      List.mem_filter.mpr ⟨hmem, hsome⟩
    have hpos := List.length_pos.mpr (List.ne_nil_of_mem this)
    omega

/-- C3 witness: the amended statement on a 2-day, 2-duty-type, 2-person duty
set. -/
theorem C3_schedule_shape_witness :
    ∃ s', calculateSchedule false shapeDemoSet = some s' ∧
      (getSchedule s').length = shapeDemoSet.numDays ∧
      (∀ day ∈ getSchedule s', day.length = shapeDemoSet.numDutyTypes ∧
        (day.filter Option.isSome).length ≤ shapeDemoSet.numDutyTypes) ∧
      (0 < shapeDemoSet.numDutyTypes →
        ∀ day ∈ getSchedule s', 1 ≤ (day.filter Option.isSome).length) :=
  C3_schedule_shape shapeDemoSet false (by unfold WF; decide) (by decide)

unseal Rat.mul Rat.inv Rat.add Rat.sub in
/-- C4 counterexample: under the legal custom config
`unavailableImpact = -20000` the −10000 same-day veto is not decisive.  After
the genuine first step assigns A to `(day 0, type 0)`, the winner selection
for slot `(0, 1)` picks A again (index 0) even though B's score carries no
veto (B is merely unavailable): A is double-booked despite a non-vetoed
competitor, and the run then overwrites A's type-0 slot with type 1. -/
theorem C4_counterexample :
    scheduleStep 0 0 vetoSet = some vetoMidSet ∧
    vetoMidSet.persons[0]? = some ⟨"A", [some true], [0]⟩ ∧
    vetoMidSet.persons[1]? = some ⟨"B", [some false], [-1]⟩ ∧
    selectWinner vetoMidSet 0 1 = 0 ∧
    scheduleStep 1 0 vetoMidSet =
      some { vetoMidSet with
              persons := [⟨"A", [some true], [1]⟩, ⟨"B", [some false], [-1]⟩] } :=
  ⟨by decide, by decide, by decide, by decide, by decide⟩

/-- C4 (amended): under the default configuration and `numDays ≤ 196`, in any
well-formed state a person already holding duty type `A ≠ B` on day `d` is
never selected as the winner for slot `(d, B)` while some other candidate's
score is not reduced by the −10000 same-day-conflict penalty.  This covers
every state every run of `calculateSchedule` reaches, since the engine only
produces well-formed states. -/
theorem C4_same_day_veto_default (s : DutySet) (d A B p q : ℕ)
    (hcfg : s.config = defaultConfig) (hwf : WF s) (hdays : s.numDays ≤ 196)
    (hB : B < s.numDutyTypes) (hAB : A ≠ B)
    (hp : p < s.persons.length) (hq : q < s.persons.length) (hpq : p ≠ q)
    (hpA : (s.persons.get ⟨p, hp⟩).assignments.getD d (-1) = (A : ℤ))
    (hqok : (s.persons.get ⟨q, hq⟩).assignments.getD d (-1) = -1 ∨
            (s.persons.get ⟨q, hq⟩).assignments.getD d (-1) = (B : ℤ)) :
    selectWinner s d B ≠ (p : ℤ) := by
  have hne : s.persons ≠ [] := by
    intro h
    rw [h] at hp
    exact absurd hp (by simp)
  have havg : (calculateDutyAverage s.persons s.numDutyTypes).getD B 0 ≤
      (s.numDays : ℚ) := by
    apply calculateDutyAverage_le s.persons s.numDutyTypes B s.numDays hB
    intro r hr
    have hval : ∀ a ∈ r.assignments, a = -1 ∨ 0 ≤ a := fun a ha =>
      ((hwf r hr).2 a ha).imp id (fun hh => hh.1)
    rw [getNumDuties_getD_eq_count s.numDutyTypes r B hB hval]
    calc r.assignments.count ((B : ℕ) : ℤ) ≤ r.assignments.length :=
          List.count_le_length _ _
      _ = s.numDays := (hwf r hr).1
  have hscore_p : (personScores s d B).getD p 0 ≤ 100 + 50 * (s.numDays : ℚ) - 10000 := by
    rw [personScores_getD s d B p hp]
    exact getDutyScore_upper_vetoed s _ d A B _ hcfg hpA hAB havg
  have hscore_q : (-70 : ℚ) ≤ (personScores s d B).getD q 0 := by
    rw [personScores_getD s d B q hq]
    exact getDutyScore_lower s _ d B _ hcfg hqok
  have hlt : (personScores s d B).getD p 0 < (personScores s d B).getD q 0 := by
    have hcast : (s.numDays : ℚ) ≤ 196 := by exact_mod_cast hdays
    linarith
  obtain ⟨hw1, -, hw3⟩ := winner_spec (personScores s d B) (personScores_ne_nil s d B hne)
  intro hcontra
  have hwp : specArgmax (personScores s d B) = p := by
    have : Int.ofNat (specArgmax (personScores s d B)) = (p : ℤ) := by
      rw [← hw1]
      exact hcontra
    exact Int.ofNat.inj this
  have hqlt : q < (personScores s d B).length := by
    rw [length_personScores]
    exact hq
  have := hw3 q hqlt
  rw [hwp] at this
  linarith

/-- C4 witness: default config, one day, two types; A (index 0) holds type 0
on day 0, B (index 1) is unassigned, so A is not selected for slot (0, 1). -/
theorem C4_same_day_veto_default_witness :
    selectWinner vetoWitnessSet 0 1 ≠ ((0 : ℕ) : ℤ) :=
  C4_same_day_veto_default vetoWitnessSet 0 0 1 0 1 rfl (by unfold WF; decide)
    (by decide) (by decide) (by decide) (by decide) (by decide) (by decide)
    (by decide) (Or.inl (by decide))

end DutyScheduler
